import Mathlib

/-!
Verification development for the transcription worker
(`src/faster-whisper/src/worker.py`, `utils.py`, `whisper_api.py`,
`checkpoint.py`).

Modelling conventions:
* Times are exact rationals (`ℚ`).  Python floats are binary doubles, so
  float representation error is outside the model.  Python's
  `round(x, 3)` rounds half to even on the underlying double; the
  model's `roundMs` rounds half up, which agrees except on exact
  half-millisecond ties, and every concrete input below avoids ties.
* Python `dict`s are association lists with Python's update semantics
  (overwrite keeps the slot, new keys are appended); equality "as maps"
  is pointwise equality of lookups.
* Python strings are Lean `String`s, but the string operations
  (`strip`, `lstrip`, slicing, `startswith`, `join`, `lower`) are
  re-implemented structurally on the character list, mirroring Python's
  code-point semantics.
* Python's `sorted` is a stable sort by key; it is modelled by
  `List.insertionSort` with the lexicographic key order.
-/

namespace Whisper

/-! ### Python string primitives -/

/-- Python `str.strip()`: drop leading and trailing whitespace. -/
def pyStrip (s : String) : String :=
  ⟨((s.data.dropWhile Char.isWhitespace).reverse.dropWhile
      Char.isWhitespace).reverse⟩

/-- Python `str.lstrip()`: drop all leading whitespace. -/
def pyLstrip (s : String) : String :=
  ⟨s.data.dropWhile Char.isWhitespace⟩

/-- Python `str.rstrip("\r\n")`: drop trailing CR and LF characters. -/
def pyRstripCRLF (s : String) : String :=
  ⟨(s.data.reverse.dropWhile (fun c => c == '\r' || c == '\n')).reverse⟩

/-- Python slicing `s[n:]` (by code points). -/
def pyDrop (s : String) (n : ℕ) : String := ⟨s.data.drop n⟩

/-- Python `s.startswith(pre)`. -/
def pyStartsWith (s pre : String) : Bool :=
  decide (s.data.take pre.data.length = pre.data)

/-- Python `sep.join(parts)`. -/
def pyJoin (sep : String) (parts : List String) : String :=
  ⟨List.intercalate sep.data (parts.map String.data)⟩

/-- Python `str.lower()` (ASCII case folding suffices here). -/
def pyLower (s : String) : String := ⟨s.data.map Char.toLower⟩

/-! ### Segments, keys and the segment map (`utils.seg_key`,
`worker._transcribe_sse_and_merge`) -/

/-- A stored segment value `{"start": ..., "end": ..., "text": ...}`
(`end` is a Lean keyword, hence `end_`). -/
structure Seg where
  start : ℚ
  end_ : ℚ
  text : String
deriving DecidableEq

/-- `round(x, 3)`: round to milliseconds. -/
def roundMs (x : ℚ) : ℚ := (round (x * 1000) : ℤ) / 1000

/-- The segment key type `(round(start,3), round(end,3), text.strip())`. -/
abbrev SegKey := ℚ × ℚ × String

/-- `utils.seg_key(start, end, text)`. -/
def seg_key (start : ℚ) (end_ : ℚ) (text : String) : SegKey :=
  (roundMs start, roundMs end_, pyStrip text)

/-- The in-memory `segments_map` dict, keyed by `seg_key`. -/
abbrev SegMap := List (SegKey × Seg)

/-- Dict lookup. -/
def mapFind : SegMap → SegKey → Option Seg
  | [], _ => none
  | (k', v) :: rest, k => if k' = k then some v else mapFind rest k

/-- Dict assignment `m[key] = value`: overwrite in place, or append a
new key. -/
def mapSet : SegMap → SegKey → Seg → SegMap
  | [], k, v => [(k, v)]
  | (k', v') :: rest, k, v =>
      if k' = k then (k, v) :: rest else (k', v') :: mapSet rest k v

/-- Two segment maps are equal as maps (the spec's notion of identical
segment maps). -/
def mapEquiv (m₁ m₂ : SegMap) : Prop := ∀ k, mapFind m₁ k = mapFind m₂ k

/-- One incoming segment of an SSE event, after JSON coercion
(`float(s.get("start", 0.0))`, `float(s.get("end", 0.0))`,
`(s.get("text") or "")`). -/
abbrev RawSeg := Seg

/-- Merging one incoming segment into `segments_map`
(`worker.WhisperWorker._transcribe_sse_and_merge`, inner `for s in segs`
loop): shift by `resume_offset_sec` when positive, drop segments whose
shifted end is `≤ drop_ends_leq_sec + 0.05`, then insert under
`seg_key`. -/
def mergeSeg (resume_offset_sec : ℚ) (drop_ends_leq_sec : Option ℚ)
    (m : SegMap) (s : RawSeg) : SegMap :=
  let shift : ℚ := if resume_offset_sec > 0 then resume_offset_sec else 0
  let start := s.start + shift
  let end_ := s.end_ + shift
  let text := pyStrip s.text
  match drop_ends_leq_sec with
  | some d =>
      if end_ ≤ d + (1/20 : ℚ) then m
      else mapSet m (seg_key start end_ text) ⟨start, end_, text⟩
  | none => mapSet m (seg_key start end_ text) ⟨start, end_, text⟩

/-- The time shift the merge applies: `resume_offset_sec` when
positive, else 0. -/
def mergeShift (resume_offset_sec : ℚ) : ℚ :=
  if resume_offset_sec > 0 then resume_offset_sec else 0

/-- The key under which `mergeSeg` inserts an incoming segment. -/
def mergeKeyOf (off : ℚ) (s : RawSeg) : SegKey :=
  seg_key (s.start + mergeShift off) (s.end_ + mergeShift off)
    (pyStrip s.text)

/-- The value `mergeSeg` stores for an incoming segment. -/
def mergeValOf (off : ℚ) (s : RawSeg) : Seg :=
  ⟨s.start + mergeShift off, s.end_ + mergeShift off, pyStrip s.text⟩

/-- Whether an incoming segment survives the overlap filter. -/
def mergePass (off : ℚ) (drop : Option ℚ) (s : RawSeg) : Bool :=
  match drop with
  | some d => decide (¬ (s.end_ + mergeShift off ≤ d + (1/20 : ℚ)))
  | none => true

/-- Merging the `segments` list of one SSE event. -/
def mergeSegs (resume_offset_sec : ℚ) (drop_ends_leq_sec : Option ℚ)
    (m : SegMap) (segs : List RawSeg) : SegMap :=
  segs.foldl (mergeSeg resume_offset_sec drop_ends_leq_sec) m

/-- Merging a sequence of SSE events (each event contributes its
`segments` list; events without a usable list contribute `[]`). -/
def mergeEvents (resume_offset_sec : ℚ) (drop_ends_leq_sec : Option ℚ)
    (m : SegMap) (events : List (List RawSeg)) : SegMap :=
  events.foldl (mergeSegs resume_offset_sec drop_ends_leq_sec) m

/-- The key/value pairs a merge pass inserts, in insertion order. -/
def insertedPairs (off : ℚ) (drop : Option ℚ) (segs : List RawSeg) :
    List (SegKey × Seg) :=
  (segs.filter (mergePass off drop)).map
    (fun s => (mergeKeyOf off s, mergeValOf off s))

/-! ### Sorting segments (`sorted(segments_map.values(),
key=lambda x: (x["start"], x["end"]))`) -/

/-- The sort key `(x["start"], x["end"])`, compared lexicographically as
Python compares tuples. -/
def segLEp (a b : Seg) : Prop :=
  a.start < b.start ∨ (a.start = b.start ∧ a.end_ ≤ b.end_)

instance : DecidableRel segLEp :=
  fun _ _ => inferInstanceAs (Decidable (_ ∨ _))

instance : IsTotal Seg segLEp where
  total a b := by
    unfold segLEp
    rcases lt_trichotomy a.start b.start with h | h | h
    · exact Or.inl (Or.inl h)
    · rcases le_total a.end_ b.end_ with h2 | h2
      · exact Or.inl (Or.inr ⟨h, h2⟩)
      · exact Or.inr (Or.inr ⟨h.symm, h2⟩)
    · exact Or.inr (Or.inl h)

instance : IsTrans Seg segLEp where
  trans a b c hab hbc := by
    unfold segLEp at *
    rcases hab with h | ⟨he, hle⟩
    · rcases hbc with h2 | ⟨he2, _⟩
      · exact Or.inl (h.trans h2)
      · exact Or.inl (he2 ▸ h)
    · rcases hbc with h2 | ⟨he2, hle2⟩
      · exact Or.inl (he ▸ h2)
      · exact Or.inr ⟨he.trans he2, hle.trans hle2⟩

/-- `sorted(segments_map.values(), key=lambda x: (x["start"], x["end"]))`
(Python's sort is stable; so is insertion sort). -/
def sortSegs (m : SegMap) : List Seg :=
  (m.map Prod.snd).insertionSort segLEp

/-- Modelled from the spec: `max(end)` over a list of segments, or none
when empty ("`last_end_sec` is a derived quantity equal to `max(end)`
over all values, or null when empty"). -/
def maxEnd? : List Seg → Option ℚ
  | [] => none
  | s :: rest =>
      match maxEnd? rest with
      | none => some s.end_
      | some m => some (max s.end_ m)

/-- The `last_end_sec` value every checkpoint writer derives from the
segment map: `seg_list[-1]["end"] if seg_list else None` with
`seg_list = sorted(segments_map.values(), key=(start, end))`
(`worker.py` snapshot, shutdown and failed-attempt paths). -/
def checkpoint_last_end_sec (m : SegMap) : Option ℚ :=
  (sortSegs m).getLast?.map (·.end_)

/-! ### Checkpoint records (`worker.process_one_file`,
`checkpoint.load_checkpoint`) -/

/-- `utils.get_file_signature`: `{size_bytes, mtime_ns}` from `stat`. -/
structure FileSig where
  size_bytes : ℕ
  mtime_ns : ℕ
deriving DecidableEq

/-- The checkpoint fields the claims are about.  `file_signature` is
optional because a loaded JSON object may lack the key (then
`cp.get("file_signature")` is `None`). -/
structure Checkpoint where
  file_signature : Option FileSig
  attempts : ℕ
  state : String
  segments : List Seg
  last_end_sec : Option ℚ
  latest_text : String
deriving DecidableEq

/-- The fresh record built at `worker.py` when the signature check
fails (state `pending`, attempts 0, no segments). -/
def fresh_checkpoint (sig : FileSig) : Checkpoint :=
  { file_signature := some sig
    attempts := 0
    state := "pending"
    segments := []
    last_end_sec := none
    latest_text := "" }

/-- `cp = load_checkpoint(cp_path) or {}` followed by the signature
gate: `if cp.get("file_signature") != sig: cp = {fresh}`.  `loaded` is
`none` when the file is absent or fails to parse. -/
def resolve_checkpoint (loaded : Option Checkpoint) (sig : FileSig) :
    Checkpoint :=
  match loaded with
  | some cp => if cp.file_signature = some sig then cp else fresh_checkpoint sig
  | none => fresh_checkpoint sig

/-- `cp.get("file_signature")` on `load_checkpoint(...) or {}`. -/
def loaded_signature (loaded : Option Checkpoint) : Option FileSig :=
  loaded.bind (·.file_signature)

/-- Rebuilding `segments_map` from the checkpoint's `segments` list
(`worker.py`: `float` coercions, `strip`, insert under `seg_key`). -/
def rebuild_map (segs : List Seg) : SegMap :=
  segs.foldl
    (fun m s =>
      let text := pyStrip s.text
      mapSet m (seg_key s.start s.end_ text) ⟨s.start, s.end_, text⟩)
    []

/-- The attempt-start write (`worker.py`): `cp_live["attempts"] =
attempt; cp_live["state"] = "in_progress"`. -/
def attempt_start_checkpoint (cp : Checkpoint) (attempt : ℕ) : Checkpoint :=
  { cp with attempts := attempt, state := "in_progress" }

/-- A periodic in-session snapshot (`_transcribe_sse_and_merge`):
updates state, segments, derived `last_end_sec` and `latest_text`, and
nothing else. -/
def snapshot_checkpoint (cp : Checkpoint) (m : SegMap)
    (latest_text : String) : Checkpoint :=
  { cp with
    state := "in_progress"
    segments := sortSegs m
    last_end_sec := checkpoint_last_end_sec m
    latest_text := latest_text }

/-- The `except ShutdownRequested` write (`worker.py`): set state
`interrupted`, store the sorted segments and derived `last_end_sec`. -/
def shutdown_checkpoint (cp : Checkpoint) (m : SegMap)
    (latest_text : String) : Checkpoint :=
  { cp with
    state := "interrupted"
    segments := sortSegs m
    last_end_sec := checkpoint_last_end_sec m
    latest_text := latest_text }

/-- The `except Exception` write (`worker.py`): state `failed_attempt`
with the sorted segments and derived `last_end_sec`. -/
def failed_attempt_checkpoint (cp : Checkpoint) (m : SegMap) : Checkpoint :=
  { cp with
    state := "failed_attempt"
    segments := sortSegs m
    last_end_sec := checkpoint_last_end_sec m }

/-- The on-disk record at shutdown time for an attempt that started
from `cp`: the attempt-start write with `attempts := cp.attempts + 1`
followed by any number of periodic snapshots. -/
def session_disk_checkpoint (cp : Checkpoint)
    (snaps : List (SegMap × String)) : Checkpoint :=
  snaps.foldl (fun c p => snapshot_checkpoint c p.1 p.2)
    (attempt_start_checkpoint cp (cp.attempts + 1))

/-- The `interrupted` record persisted when `ShutdownRequested` fires
during an attempt that started from `cp`, with merger map `m`. -/
def interrupted_checkpoint (cp : Checkpoint)
    (snaps : List (SegMap × String)) (m : SegMap)
    (latest_text : String) : Checkpoint :=
  shutdown_checkpoint (session_disk_checkpoint cp snaps) m latest_text

/-! ### Completion gate and output construction
(`worker.process_one_file`, success path) -/

/-- The post-session finalisation (`worker.py`): sort the map, apply the
completion-threshold check, then build the transcript.  `Except.error`
models the raised `RuntimeError` (the attempt fails, `save_outputs` is
never reached); `Except.ok` carries the transcript and the segment list
passed to `save_outputs`. -/
def completion_gate_fails (complete_at_percent : ℚ)
    (audio_duration : Option ℚ) (seg_list : List Seg) : Bool :=
  match audio_duration, seg_list.getLast? with
  | some d, some lastSeg =>
      decide (0 < d) && decide (lastSeg.end_ / d < complete_at_percent)
  | _, _ => false

/-- `" ".join(s["text"].strip() for s in seg_list).strip()`, with the
`latest_text` fallback when empty. -/
def build_transcript (seg_list : List Seg) (latest_text : String) : String :=
  let t0 := pyStrip (pyJoin " " (seg_list.map (fun s => pyStrip s.text)))
  if t0 = "" then pyStrip latest_text else t0

def finalize (complete_at_percent : ℚ) (audio_duration : Option ℚ)
    (m : SegMap) (latest_text : String) :
    Except String (String × List Seg) :=
  if completion_gate_fails complete_at_percent audio_duration (sortSegs m)
  then Except.error "Incomplete transcription"
  else Except.ok (build_transcript (sortSegs m) latest_text, sortSegs m)

/-! ### SSE framing (`whisper_api.iter_sse_data`) -/

/-- The reader's loop state: `data_lines`, then the remaining input
lines.  Faithful to `iter_sse_data` (the `raw is None` guard and UTF-8
decoding happen before the lines reach this logic). -/
def iterSSEAux : List String → List String → List String
  | data_lines, [] =>
      if data_lines.isEmpty then []
      else [pyJoin "\n" data_lines]
  | data_lines, raw :: rest =>
      let line := pyRstripCRLF raw
      if line = "" then
        if data_lines.isEmpty then iterSSEAux [] rest
        else pyJoin "\n" data_lines :: iterSSEAux [] rest
      else if pyStartsWith line "data:" then
        iterSSEAux (data_lines ++ [pyLstrip (pyDrop line 5)]) rest
      else iterSSEAux data_lines rest

/-- `whisper_api.iter_sse_data`, collected into a list. -/
def iter_sse_data (lines : List String) : List String := iterSSEAux [] lines

/-- Modelled from the spec: the relevant signal of the input — `none`
for a blank (after CR/LF stripping) line, `some` of the stripped
`data:`-line content, other lines ignored. -/
def sseSignal (strip : String → String) (lines : List String) :
    List (Option String) :=
  (lines.map pyRstripCRLF).filterMap
    (fun l =>
      if l = "" then some none
      else if pyStartsWith l "data:" then some (some (strip (pyDrop l 5)))
      else none)

/-- Modelled from the spec: split the signal into runs of data-line
contents, a blank line ending each run. -/
def sseGroups : List (Option String) → List (List String)
  | [] => [[]]
  | none :: rest => [] :: sseGroups rest
  | some s :: rest =>
      match sseGroups rest with
      | g :: gs => (s :: g) :: gs
      | [] => [[s]]

/-- Modelled from the spec: one payload per maximal nonempty run,
joined with newlines. -/
def ssePayloadsOf (groups : List (List String)) : List String :=
  (groups.filter (fun g => !g.isEmpty)).map (pyJoin "\n")

/-- Modelled from the spec (claim C4's reading): the emitted payloads,
parameterised by how a data line's content is stripped. -/
def ssePayloads (strip : String → String) (lines : List String) :
    List String :=
  ssePayloadsOf (sseGroups (sseSignal strip lines))

/-- Modelled from the spec: strip exactly the single leading whitespace
character after the colon (the claim's stripping rule). -/
def stripOneWS (s : String) : String :=
  match s.data with
  | c :: rest => if c.isWhitespace then ⟨rest⟩ else s
  | [] => s

/-- Flushing the buffer: nothing when empty, one joined payload
otherwise. -/
def sseFlush (buf : List String) : List String :=
  if buf.isEmpty then [] else [pyJoin "\n" buf]

/-- The output of the reader given its current buffer and the grouped
remaining signal (device for the framing equivalence proof). -/
def sseAssemble (buf : List String) : List (List String) → List String
  | [] => sseFlush buf
  | g :: gs => sseFlush (buf ++ g) ++ ssePayloadsOf gs

/-! ### File discovery (`worker.list_candidate_files`) -/

/-- One directory entry as `Path.iterdir` yields it. -/
structure DirEntry where
  name : String
  is_file : Bool
deriving DecidableEq

/-- `PurePath.suffix`: `name[i:]` for `i = name.rfind('.')` when
`0 < i < len(name) - 1`, else the empty string (CPython's rule). -/
def pathSuffix (name : String) : String :=
  let cs := name.data
  let n := cs.length
  match (cs.reverse.findIdx? (· == '.')) with
  | none => ""
  | some ridx =>
      let i := n - 1 - ridx
      if 0 < i ∧ i < n - 1 then ⟨cs.drop i⟩ else ""

/-- String order used by the final `sorted(out, key=lambda x:
x.name.lower())`. -/
def nameLowerLE (a b : String) : Prop :=
  (pyLower a).data ≤ (pyLower b).data

instance : DecidableRel nameLowerLE :=
  fun a b => inferInstanceAs (Decidable ((pyLower a).data ≤ (pyLower b).data))

instance : IsTotal String nameLowerLE where
  total a b := le_total (pyLower a).data (pyLower b).data

instance : IsTrans String nameLowerLE where
  trans _ _ _ hab hbc := le_trans hab hbc

/-- `worker.WhisperWorker.list_candidate_files`: keep regular files that
do not start with `processed_` and whose lowercased suffix is
supported; return names sorted case-insensitively. -/
def list_candidate_files (supported_formats : List String)
    (entries : List DirEntry) : List String :=
  ((entries.filter
      (fun e =>
        e.is_file
          && !(pyStartsWith e.name "processed_")
          && supported_formats.contains (pyLower (pathSuffix e.name)))).map
    (·.name)).insertionSort nameLowerLE

/-! ### Retry backoff (`worker.process_one_file`, failure path) -/

/-- `delay = self.cfg.retry_delay_base * (2 ** (attempt - 1))`
(`retry_delay_base` is an `int` from the environment). -/
def retry_delay (retry_delay_base : ℤ) (attempt : ℕ) : ℤ :=
  retry_delay_base * 2 ^ (attempt - 1)

/-! ### Basic lemmas about the segment-map operations -/

theorem mergeSeg_eq (off : ℚ) (drop : Option ℚ) (m : SegMap) (s : RawSeg) :
    mergeSeg off drop m s =
      if mergePass off drop s
      then mapSet m (mergeKeyOf off s) (mergeValOf off s)
      else m := by
  cases drop with
  | none => rfl
  | some d =>
      show (if s.end_ + mergeShift off ≤ d + (1/20 : ℚ) then m
            else mapSet m (mergeKeyOf off s) (mergeValOf off s)) = _
      by_cases h : s.end_ + mergeShift off ≤ d + (1/20 : ℚ)
      · rw [if_pos h, if_neg]
        simp only [mergePass]
        simp
        linarith
      · have h2 := lt_of_not_le h
        rw [if_neg h, if_pos]
        simp only [mergePass]
        simp
        linarith

theorem mapFind_mapSet (m : SegMap) (k' k : SegKey) (v : Seg) :
    mapFind (mapSet m k' v) k = if k' = k then some v else mapFind m k := by
  induction m with
  | nil => simp [mapSet, mapFind]
  | cons p rest ih =>
      obtain ⟨pk, pv⟩ := p
      by_cases h1 : pk = k'
      · subst h1
        by_cases h2 : pk = k <;> simp [mapSet, mapFind, h2]
      · by_cases h2 : pk = k
        · have h4 : ¬ k' = k := fun he => h1 (h2.trans he.symm)
          have h5 : ¬ k = k' := fun he => h4 he.symm
          simp [mapSet, mapFind, h1, h2, h4, h5]
        · simp [mapSet, mapFind, h1, h2, ih]

theorem length_mapSet (m : SegMap) (k : SegKey) (v : Seg) :
    m.length ≤ (mapSet m k v).length := by
  induction m with
  | nil => simp [mapSet]
  | cons p rest ih =>
      obtain ⟨pk, pv⟩ := p
      by_cases h : pk = k <;> simp [mapSet, h] <;> omega

theorem mapFind_isSome_mergeSeg (off : ℚ) (drop : Option ℚ) (m : SegMap)
    (s : RawSeg) (k : SegKey) (h : (mapFind m k).isSome) :
    (mapFind (mergeSeg off drop m s) k).isSome := by
  rw [mergeSeg_eq]
  split
  · rw [mapFind_mapSet]
    split <;> simp [h]
  · exact h

theorem length_mergeSeg (off : ℚ) (drop : Option ℚ) (m : SegMap)
    (s : RawSeg) : m.length ≤ (mergeSeg off drop m s).length := by
  rw [mergeSeg_eq]
  split
  · exact length_mapSet _ _ _
  · exact le_refl _

theorem mapFind_isSome_mergeSegs (off : ℚ) (drop : Option ℚ)
    (segs : List RawSeg) (m : SegMap) (k : SegKey)
    (h : (mapFind m k).isSome) :
    (mapFind (mergeSegs off drop m segs) k).isSome := by
  induction segs generalizing m with
  | nil => exact h
  | cons s rest ih =>
      exact ih _ (mapFind_isSome_mergeSeg off drop m s k h)

theorem length_mergeSegs (off : ℚ) (drop : Option ℚ)
    (segs : List RawSeg) (m : SegMap) :
    m.length ≤ (mergeSegs off drop m segs).length := by
  induction segs generalizing m with
  | nil => exact le_refl _
  | cons s rest ih =>
      exact le_trans (length_mergeSeg off drop m s) (ih _)

/-! ### C10 -/

/-- C10: the merge is insertion-only.  Processing any sequence of SSE
events never removes a key from the segment map, and the
`segments_done` count (the size of the map) is monotone
non-decreasing. -/
theorem merge_insertion_only (off : ℚ) (drop : Option ℚ) (m : SegMap)
    (events : List (List RawSeg)) :
    (∀ k, (mapFind m k).isSome →
       (mapFind (mergeEvents off drop m events) k).isSome) ∧
    m.length ≤ (mergeEvents off drop m events).length := by
  induction events generalizing m with
  | nil => exact ⟨fun _ h => h, le_refl _⟩
  | cons e rest ih =>
      refine ⟨fun k h => ?_, ?_⟩
      · exact (ih (mergeSegs off drop m e)).1 k
          (mapFind_isSome_mergeSegs off drop e m k h)
      · exact le_trans (length_mergeSegs off drop e m)
          (ih (mergeSegs off drop m e)).2

/-- Witness for C10 at a concrete map and event list. -/
theorem merge_insertion_only_witness :
    (mapFind
        (mergeEvents 0 none [((1, 2, "a"), ⟨1, 2, "a"⟩)] [[⟨3, 4, "b"⟩]])
        (1, 2, "a")).isSome ∧
    ([((1, 2, "a"), ⟨1, 2, "a"⟩)] : SegMap).length ≤
      (mergeEvents 0 none [((1, 2, "a"), ⟨1, 2, "a"⟩)] [[⟨3, 4, "b"⟩]]).length :=
  ⟨(merge_insertion_only 0 none [((1, 2, "a"), ⟨1, 2, "a"⟩)] [[⟨3, 4, "b"⟩]]).1
      (1, 2, "a") (by decide),
   (merge_insertion_only 0 none [((1, 2, "a"), ⟨1, 2, "a"⟩)] [[⟨3, 4, "b"⟩]]).2⟩

/-! ### C9 -/

/-- C9: the delay before the retry after failed attempt `n` (1-based)
is exactly, hence at least, `retry_delay_base * 2 ^ (n - 1)`. -/
theorem backoff_lower_bound (retry_delay_base : ℤ) (n : ℕ) (h : 1 ≤ n) :
    retry_delay retry_delay_base n = retry_delay_base * 2 ^ (n - 1) ∧
    retry_delay_base * 2 ^ (n - 1) ≤ retry_delay retry_delay_base n :=
  ⟨rfl, le_refl _⟩

/-- Witness for C9 at base 30, attempt 2. -/
theorem backoff_lower_bound_witness :
    1 ≤ 2 ∧
    (retry_delay 30 2 = 30 * 2 ^ (2 - 1) ∧
      (30 : ℤ) * 2 ^ (2 - 1) ≤ retry_delay 30 2) :=
  ⟨by decide, backoff_lower_bound 30 2 (by decide)⟩

/-! ### C7 -/

/-- C7: the signature gate.  When the loaded checkpoint's
`file_signature` differs from the on-disk signature (including when no
checkpoint exists or it failed to parse, `loaded = none`), the driver
uses a fresh record with state `pending`, attempts 0, no segments and
null `last_end_sec`; when it matches, the loaded record (and hence its
`segments` list) is kept. -/
theorem signature_gate (loaded : Option Checkpoint) (sig : FileSig) :
    resolve_checkpoint loaded sig =
      (if loaded_signature loaded = some sig
       then loaded.getD (fresh_checkpoint sig)
       else fresh_checkpoint sig) ∧
    (fresh_checkpoint sig).state = "pending" ∧
    (fresh_checkpoint sig).attempts = 0 ∧
    (fresh_checkpoint sig).segments = [] ∧
    (fresh_checkpoint sig).last_end_sec = none := by
  refine ⟨?_, rfl, rfl, rfl, rfl⟩
  cases loaded with
  | none => simp [resolve_checkpoint, loaded_signature]
  | some cp =>
      by_cases h : cp.file_signature = some sig <;>
        simp [resolve_checkpoint, loaded_signature, h]

/-! ### C6 -/

/-- Counterexample to C6 as stated: starting an attempt from a
checkpoint with `attempts = 0` and shutting down leaves an
`interrupted` record whose `attempts` field is 1, not the pre-attempt
value 0 (the attempt-start write already persisted the increment). -/
theorem shutdown_attempts_cex :
    (interrupted_checkpoint ⟨none, 0, "pending", [], none, ""⟩ [] [] "").attempts
      ≠ 0 := by decide

/-- C6 amended: on `ShutdownRequested` the driver persists an
`interrupted` record holding the merger's sorted segments, but the
`attempts` field equals the pre-attempt value plus one (the attempt is
counted), regardless of how many periodic snapshots the session
wrote. -/
theorem shutdown_interrupted (cp : Checkpoint)
    (snaps : List (SegMap × String)) (m : SegMap) (latest_text : String) :
    (interrupted_checkpoint cp snaps m latest_text).state = "interrupted" ∧
    (interrupted_checkpoint cp snaps m latest_text).segments = sortSegs m ∧
    (interrupted_checkpoint cp snaps m latest_text).attempts =
      cp.attempts + 1 := by
  refine ⟨rfl, rfl, ?_⟩
  show (session_disk_checkpoint cp snaps).attempts = cp.attempts + 1
  unfold session_disk_checkpoint
  have key : ∀ (l : List (SegMap × String)) (c : Checkpoint),
      (l.foldl (fun c p => snapshot_checkpoint c p.1 p.2) c).attempts =
        c.attempts := by
    intro l
    induction l with
    | nil => intro c; rfl
    | cons p rest ih => intro c; exact ih (snapshot_checkpoint c p.1 p.2)
  exact key snaps (attempt_start_checkpoint cp (cp.attempts + 1))

/-! ### C2 -/

/-- C2: the completion gate.  When the duration is known and positive,
the merged segment list is non-empty and its final `last_end` over the
duration is below `complete_at_percent`, the attempt raises (modelled
by `Except.error`) and the success path that writes the two output
files is never reached. -/
theorem completion_gate (pct d : ℚ) (m : SegMap) (latest_text : String)
    (ls : Seg) (hd : 0 < d)
    (hlast : (sortSegs m).getLast? = some ls)
    (hpct : ls.end_ / d < pct) :
    finalize pct (some d) m latest_text =
      Except.error "Incomplete transcription" ∧
    ∀ out, finalize pct (some d) m latest_text ≠ Except.ok out := by
  have hg : completion_gate_fails pct (some d) (sortSegs m) = true := by
    unfold completion_gate_fails
    rw [hlast]
    simp [hd, hpct]
  refine ⟨?_, fun out => ?_⟩
  · simp [finalize, hg]
  · simp [finalize, hg]

/-- Witness for C2: a 60-second file whose only merged segment ends at
5 s fails the 98 % gate. -/
theorem completion_gate_witness :
    (0 : ℚ) < 60 ∧
    (sortSegs [((0, 5, "a"), ⟨0, 5, "a"⟩)]).getLast? = some ⟨0, 5, "a"⟩ ∧
    (Seg.mk 0 5 "a").end_ / 60 < 98 / 100 ∧
    finalize (98 / 100) (some 60) [((0, 5, "a"), ⟨0, 5, "a"⟩)] "x" =
      Except.error "Incomplete transcription" :=
  ⟨by norm_num, rfl, by norm_num,
   (completion_gate (98 / 100) 60 [((0, 5, "a"), ⟨0, 5, "a"⟩)] "x"
      ⟨0, 5, "a"⟩ (by norm_num) rfl (by norm_num)).1⟩

/-! ### C5 -/

theorem maxEnd?_eq_none_iff (l : List Seg) : maxEnd? l = none ↔ l = [] := by
  cases l with
  | nil => simp [maxEnd?]
  | cons a rest =>
      simp only [maxEnd?]
      cases maxEnd? rest <;> simp

theorem maxEnd?_bound (l : List Seg) (M : ℚ) (h : maxEnd? l = some M) :
    ∀ s ∈ l, s.end_ ≤ M := by
  induction l generalizing M with
  | nil => simp [maxEnd?] at h
  | cons a rest ih =>
      intro s hs
      simp only [maxEnd?] at h
      cases hr : maxEnd? rest with
      | none =>
          rw [hr] at h
          have hM : a.end_ = M := Option.some.inj h
          have hrest : rest = [] := (maxEnd?_eq_none_iff rest).mp hr
          subst hrest
          rcases List.mem_singleton.mp hs with rfl
          exact le_of_eq hM
      | some Mr =>
          rw [hr] at h
          have hM : max a.end_ Mr = M := Option.some.inj h
          rcases List.mem_cons.mp hs with rfl | hmem
          · exact hM ▸ le_max_left _ _
          · exact le_trans (ih Mr hr s hmem) (hM ▸ le_max_right _ _)

theorem maxEnd?_mem (l : List Seg) (M : ℚ) (h : maxEnd? l = some M) :
    ∃ s ∈ l, s.end_ = M := by
  induction l generalizing M with
  | nil => simp [maxEnd?] at h
  | cons a rest ih =>
      simp only [maxEnd?] at h
      cases hr : maxEnd? rest with
      | none =>
          rw [hr] at h
          exact ⟨a, List.mem_cons_self a rest, Option.some.inj h⟩
      | some Mr =>
          rw [hr] at h
          have hM : max a.end_ Mr = M := Option.some.inj h
          rcases le_total a.end_ Mr with hle | hle
          · obtain ⟨s, hs, hse⟩ := ih Mr hr
            refine ⟨s, List.mem_cons_of_mem a hs, ?_⟩
            rw [hse, ← hM, max_eq_right hle]
          · exact ⟨a, List.mem_cons_self a rest, by rw [← hM, max_eq_left hle]⟩

theorem maxEnd?_perm {l₁ l₂ : List Seg} (h : l₁.Perm l₂) :
    maxEnd? l₁ = maxEnd? l₂ := by
  cases h1 : maxEnd? l₁ with
  | none =>
      have : l₁ = [] := (maxEnd?_eq_none_iff l₁).mp h1
      subst this
      have : l₂ = [] := h.nil_eq.symm
      subst this
      rfl
  | some M1 =>
      cases h2 : maxEnd? l₂ with
      | none =>
          have : l₂ = [] := (maxEnd?_eq_none_iff l₂).mp h2
          subst this
          have : l₁ = [] := h.eq_nil
          subst this
          exact Option.noConfusion ((rfl : maxEnd? [] = none).symm.trans h1)
      | some M2 =>
          obtain ⟨s1, hs1, he1⟩ := maxEnd?_mem l₁ M1 h1
          obtain ⟨s2, hs2, he2⟩ := maxEnd?_mem l₂ M2 h2
          have hb1 : M1 ≤ M2 :=
            he1 ▸ maxEnd?_bound l₂ M2 h2 s1 (h.mem_iff.mp hs1)
          have hb2 : M2 ≤ M1 :=
            he2 ▸ maxEnd?_bound l₁ M1 h1 s2 (h.mem_iff.mpr hs2)
          rw [le_antisymm hb1 hb2]

theorem pairwise_rel_getLast {R : Seg → Seg → Prop} (l : List Seg)
    (hne : l ≠ []) (hp : l.Pairwise R) :
    ∀ x ∈ l, x = l.getLast hne ∨ R x (l.getLast hne) := by
  induction l with
  | nil => exact absurd rfl hne
  | cons a rest ih =>
      intro x hx
      cases rest with
      | nil =>
          rcases List.mem_singleton.mp hx with rfl
          exact Or.inl rfl
      | cons b rest2 =>
          have hne2 : (b :: rest2) ≠ [] := List.cons_ne_nil _ _
          have hlast : (a :: b :: rest2).getLast hne = (b :: rest2).getLast hne2 :=
            List.getLast_cons hne2
          rcases List.mem_cons.mp hx with rfl | hmem
          · rw [hlast]
            exact Or.inr ((List.pairwise_cons.mp hp).1 _
              (List.getLast_mem hne2))
          · rw [hlast]
            exact ih hne2 (List.pairwise_cons.mp hp).2 x hmem

/-- Counterexample to C5 as stated: with a nested segment
(`(5,6)` inside `(0,10)`) the persisted `last_end_sec` is the end of
the lexicographically last segment (6), not `max(end)` (10). -/
theorem last_end_cex :
    checkpoint_last_end_sec
        [((0, 10, "a"), ⟨0, 10, "a"⟩), ((5, 6, "b"), ⟨5, 6, "b"⟩)] ≠
      maxEnd?
        ([((0, 10, "a"), ⟨0, 10, "a"⟩), ((5, 6, "b"), ⟨5, 6, "b"⟩)].map
          Prod.snd) := by decide

/-- C5 amended: the persisted `last_end_sec` is null exactly when the
segment map is empty, and otherwise is the `end` of the last element of
the `(start, end)`-sorted segments list; this equals `max(end)` over
the map whenever `end` is monotone along the `(start, end)` order (in
particular when no segment is nested inside another), but not in
general. -/
theorem last_end_derived (m : SegMap)
    (hmono : ∀ a ∈ m.map Prod.snd, ∀ b ∈ m.map Prod.snd,
        segLEp a b → a.end_ ≤ b.end_) :
    checkpoint_last_end_sec m = maxEnd? (m.map Prod.snd) ∧
    (checkpoint_last_end_sec m = none ↔ m = []) := by
  have hperm : (sortSegs m).Perm (m.map Prod.snd) :=
    List.perm_insertionSort segLEp (m.map Prod.snd)
  constructor
  · cases hm : m with
    | nil => simp [checkpoint_last_end_sec, sortSegs, maxEnd?]
    | cons p rest =>
        subst hm
        have hne : sortSegs (p :: rest) ≠ [] := by
          intro hnil
          have := hperm.length_eq
          rw [hnil] at this
          simp at this
        have hLmem : (sortSegs (p :: rest)).getLast hne ∈ sortSegs (p :: rest) :=
          List.getLast_mem hne
        have hpw : (sortSegs (p :: rest)).Pairwise segLEp :=
          List.sorted_insertionSort segLEp _
        cases hM : maxEnd? ((p :: rest).map Prod.snd) with
        | none =>
            have := (maxEnd?_eq_none_iff _).mp hM
            simp at this
        | some M =>
            obtain ⟨s, hs, hse⟩ := maxEnd?_mem _ M hM
            have hs' : s ∈ sortSegs (p :: rest) := hperm.mem_iff.mpr hs
            have hLub : ((sortSegs (p :: rest)).getLast hne).end_ ≤ M :=
              maxEnd?_bound _ M hM _ (hperm.mem_iff.mp hLmem)
            have hsL := pairwise_rel_getLast _ hne hpw s hs'
            have hMub : M ≤ ((sortSegs (p :: rest)).getLast hne).end_ := by
              rcases hsL with rfl | hrel
              · exact le_of_eq hse.symm
              · exact hse ▸ hmono s (hperm.mem_iff.mp hs') _
                  (hperm.mem_iff.mp hLmem) hrel
            have : ((sortSegs (p :: rest)).getLast hne).end_ = M :=
              le_antisymm hLub hMub
            rw [checkpoint_last_end_sec, List.getLast?_eq_getLast _ hne,
              Option.map_some']
            rw [this]
  · constructor
    · intro h
      by_contra hm
      have hne : sortSegs m ≠ [] := by
        intro hnil
        have := hperm.length_eq
        rw [hnil] at this
        cases m with
        | nil => exact hm rfl
        | cons p rest => simp at this
      rw [checkpoint_last_end_sec, List.getLast?_eq_getLast _ hne] at h
      simp at h
    · intro h
      subst h
      rfl

/-- Witness for C5 with two disjoint segments. -/
theorem last_end_derived_witness :
    checkpoint_last_end_sec [((0, 2, "a"), ⟨0, 2, "a"⟩), ((2, 5, "b"), ⟨2, 5, "b"⟩)] =
      maxEnd? ([((0, 2, "a"), ⟨0, 2, "a"⟩), ((2, 5, "b"), ⟨2, 5, "b"⟩)].map Prod.snd) ∧
    (checkpoint_last_end_sec
        [((0, 2, "a"), ⟨0, 2, "a"⟩), ((2, 5, "b"), ⟨2, 5, "b"⟩)] = none ↔
      ([((0, 2, "a"), ⟨0, 2, "a"⟩), ((2, 5, "b"), ⟨2, 5, "b"⟩)] : SegMap) = []) :=
  last_end_derived [((0, 2, "a"), ⟨0, 2, "a"⟩), ((2, 5, "b"), ⟨2, 5, "b"⟩)]
    (by decide)

/-! ### C1 -/

theorem mergeShift_of_nonneg {off : ℚ} (hoff : 0 ≤ off) :
    mergeShift off = off := by
  unfold mergeShift
  rcases lt_or_eq_of_le hoff with h | h
  · rw [if_pos h]
  · rw [← h]
    simp

theorem mergeSegs_resume_suffix (off cutEnd : ℚ) (hoff : 0 ≤ off)
    (suf : List RawSeg)
    (hsuf : ∀ t ∈ suf, cutEnd + (1/20 : ℚ) < t.end_) :
    ∀ m : SegMap,
      mergeSegs off (some cutEnd) m
        (suf.map (fun t => ⟨t.start - off, t.end_ - off, t.text⟩)) =
      mergeSegs 0 none m suf := by
  induction suf with
  | nil => intro m; rfl
  | cons t rest ih =>
      intro m
      have hsh : mergeShift off = off := mergeShift_of_nonneg hoff
      have hsh0 : mergeShift 0 = 0 := by simp [mergeShift]
      have hk : mergeKeyOf off ⟨t.start - off, t.end_ - off, t.text⟩ =
          mergeKeyOf 0 t := by
        simp [mergeKeyOf, hsh, hsh0]
      have hv : mergeValOf off ⟨t.start - off, t.end_ - off, t.text⟩ =
          mergeValOf 0 t := by
        simp [mergeValOf, hsh, hsh0]
      have hp1 : mergePass off (some cutEnd) ⟨t.start - off, t.end_ - off, t.text⟩
          = true := by
        simp only [mergePass, hsh, decide_eq_true_eq]
        have := hsuf t (List.mem_cons_self t rest)
        intro hle
        rw [sub_add_cancel] at hle
        linarith
      have hstep : mergeSeg off (some cutEnd) m ⟨t.start - off, t.end_ - off, t.text⟩
          = mergeSeg 0 none m t := by
        rw [mergeSeg_eq, mergeSeg_eq, hk, hv, hp1]
        rfl
      show mergeSegs off (some cutEnd)
          (mergeSeg off (some cutEnd) m ⟨t.start - off, t.end_ - off, t.text⟩)
          (rest.map (fun t => ⟨t.start - off, t.end_ - off, t.text⟩)) = _
      rw [hstep]
      exact ih (fun u hu => hsuf u (List.mem_cons_of_mem t hu))
        (mergeSeg 0 none m t)

/-- Counterexample to C1 as stated: one-shot segments
`(0, 10, "a")`, `(9.99, 10.02, "b")`, cut after the first (so
`last_end = 10`, overlap 2, `resume_offset = 8`).  The second segment's
end lies within the 0.05 s epsilon of the cut, so the resumed run drops
it and the two maps differ at its key. -/
theorem resume_equivalence_cex :
    ¬ mapEquiv
        (mergeSegs 8 (some 10)
          (mergeSegs 0 none [] [⟨0, 10, "a"⟩])
          [⟨199/100, 202/100, "b"⟩])
        (mergeSegs 0 none [] [⟨0, 10, "a"⟩, ⟨999/100, 1002/100, "b"⟩]) := by
  intro h
  have hx := h (999/100, 1002/100, "b")
  have hstrip_a : pyStrip "a" = "a" := by decide
  have hstrip_b : pyStrip "b" = "b" := by decide
  simp only [mergeSegs, List.foldl_cons, List.foldl_nil, mergeSeg_eq,
    mergePass, mergeKeyOf, mergeValOf, mergeShift, seg_key, roundMs,
    hstrip_a, hstrip_b] at hx
  norm_num [round_eq, mapSet, mapFind] at hx
  exact Option.noConfusion hx

/-- C1 amended: with the driver's `resume_offset_sec =
max(0, last_end − resume_overlap_sec)`, the resumed run reproduces the
one-shot segment map provided every segment after the cut ends strictly
more than 0.05 s past the cut point; segments ending within the epsilon
window of the cut are dropped by the overlap filter and are lost
relative to the one-shot run. -/
theorem resume_equivalence (s : List RawSeg) (k : ℕ) (hk : k < s.length)
    (overlap : ℚ)
    (hsuf : ∀ t ∈ s.drop (k + 1),
        (s.get ⟨k, hk⟩).end_ + (1/20 : ℚ) < t.end_) :
    mergeSegs (max 0 ((s.get ⟨k, hk⟩).end_ - overlap))
        (some ((s.get ⟨k, hk⟩).end_))
        (mergeSegs 0 none [] (s.take (k + 1)))
        ((s.drop (k + 1)).map
          (fun t => ⟨t.start - max 0 ((s.get ⟨k, hk⟩).end_ - overlap),
                     t.end_ - max 0 ((s.get ⟨k, hk⟩).end_ - overlap),
                     t.text⟩)) =
      mergeSegs 0 none [] s := by
  have h1 : mergeSegs 0 none [] s =
      mergeSegs 0 none (mergeSegs 0 none [] (s.take (k + 1)))
        (s.drop (k + 1)) := by
    conv_lhs => rw [← List.take_append_drop (k + 1) s]
    unfold mergeSegs
    rw [List.foldl_append]
  rw [h1]
  exact mergeSegs_resume_suffix _ _ (le_max_left 0 _) _ hsuf _

/-- Witness for C1: segments `(0,10,"a")`, `(11,12,"b")`, cut after the
first with overlap 2. -/
theorem resume_equivalence_witness :
    mergeSegs (max 0 (10 - 2)) (some 10)
        (mergeSegs 0 none [] [⟨0, 10, "a"⟩])
        ([(⟨11, 12, "b"⟩ : RawSeg)].map
          (fun t => ⟨t.start - max 0 (10 - 2), t.end_ - max 0 (10 - 2),
                     t.text⟩)) =
      mergeSegs 0 none [] [⟨0, 10, "a"⟩, ⟨11, 12, "b"⟩] := by
  have h := resume_equivalence [⟨0, 10, "a"⟩, ⟨11, 12, "b"⟩] 0 (by decide) 2
    (by
      intro t ht
      simp only [List.drop_succ_cons, List.drop_zero, List.mem_singleton] at ht
      subst ht
      norm_num)
  simpa using h

/-! ### C3 -/

theorem mergeEvents_eq_flatten (off : ℚ) (drop : Option ℚ)
    (events : List (List RawSeg)) : ∀ m : SegMap,
    mergeEvents off drop m events = mergeSegs off drop m events.flatten := by
  induction events with
  | nil => intro m; rfl
  | cons e rest ih =>
      intro m
      show mergeEvents off drop (mergeSegs off drop m e) rest = _
      rw [ih]
      show _ = mergeSegs off drop m (e ++ rest.flatten)
      unfold mergeSegs
      rw [List.foldl_append]

theorem mapFind_mergeSegs (off : ℚ) (drop : Option ℚ) (segs : List RawSeg) :
    ∀ (m : SegMap) (k : SegKey),
      mapFind (mergeSegs off drop m segs) k =
        match (insertedPairs off drop segs).reverse.find?
            (fun p => decide (p.1 = k)) with
        | some p => some p.2
        | none => mapFind m k := by
  induction segs with
  | nil => intro m k; rfl
  | cons s rest ih =>
      intro m k
      have hL : mergeSegs off drop m (s :: rest) =
          mergeSegs off drop (mergeSeg off drop m s) rest := rfl
      rw [hL, ih]
      by_cases hpass : mergePass off drop s = true
      · have hpairs : insertedPairs off drop (s :: rest) =
            (mergeKeyOf off s, mergeValOf off s) :: insertedPairs off drop rest := by
          simp [insertedPairs, List.filter_cons, hpass]
        rw [hpairs, List.reverse_cons, List.find?_append]
        cases hf : (insertedPairs off drop rest).reverse.find?
            (fun p => decide (p.1 = k)) with
        | some p => rfl
        | none =>
            simp only [Option.none_or]
            rw [mergeSeg_eq, if_pos hpass, mapFind_mapSet]
            by_cases hk : mergeKeyOf off s = k
            · simp [List.find?, hk]
            · simp [List.find?, hk]
      · have hpass' : mergePass off drop s = false :=
          Bool.eq_false_iff.mpr hpass
        have hpairs : insertedPairs off drop (s :: rest) =
            insertedPairs off drop rest := by
          simp [insertedPairs, List.filter_cons, hpass']
        rw [hpairs, mergeSeg_eq, if_neg hpass]

/-- Counterexample to C3 as stated: the two segments differ only in the
fourth decimal of `start`, so they share the key `(1, 2, "x")` but have
different stored values; swapping the event order changes which value
wins. -/
theorem merge_permutation_cex :
    ([[⟨10001/10000, 2, "x"⟩], [⟨10004/10000, 2, "x"⟩]] :
        List (List RawSeg)).flatten.Perm
      ([[⟨10004/10000, 2, "x"⟩], [⟨10001/10000, 2, "x"⟩]] :
        List (List RawSeg)).flatten ∧
    ¬ mapEquiv
        (mergeEvents 0 none []
          [[⟨10001/10000, 2, "x"⟩], [⟨10004/10000, 2, "x"⟩]])
        (mergeEvents 0 none []
          [[⟨10004/10000, 2, "x"⟩], [⟨10001/10000, 2, "x"⟩]]) := by
  constructor
  · show ([⟨10001/10000, 2, "x"⟩, ⟨10004/10000, 2, "x"⟩] :
        List RawSeg).Perm [⟨10004/10000, 2, "x"⟩, ⟨10001/10000, 2, "x"⟩]
    exact List.Perm.swap _ _ []
  · intro h
    have hx := h (1, 2, "x")
    have hstrip_x : pyStrip "x" = "x" := by decide
    simp only [mergeEvents, mergeSegs, List.foldl_cons, List.foldl_nil,
      mergeSeg_eq, mergePass, mergeKeyOf, mergeValOf, mergeShift, seg_key,
      roundMs, hstrip_x] at hx
    norm_num [round_eq, mapSet, mapFind] at hx

/-- C3 amended: merging two event sequences whose concatenated segment
lists are permutations of each other into the same initial map, with
the same shift and drop filter, yields identical segment maps provided
any two incoming segments with the same segment key have identical
shifted values (in particular whenever times carry at most millisecond
precision); in general only the key sets agree, because the map stores
the unrounded shifted values under a millisecond-rounded key. -/
theorem merge_permutation (off : ℚ) (drop : Option ℚ) (m : SegMap)
    (e₁ e₂ : List (List RawSeg))
    (hperm : e₁.flatten.Perm e₂.flatten)
    (hfun : ∀ s ∈ e₁.flatten, ∀ t ∈ e₁.flatten,
        mergeKeyOf off s = mergeKeyOf off t →
        mergeValOf off s = mergeValOf off t) :
    mapEquiv (mergeEvents off drop m e₁) (mergeEvents off drop m e₂) := by
  intro k
  rw [mergeEvents_eq_flatten, mergeEvents_eq_flatten,
    mapFind_mergeSegs, mapFind_mergeSegs]
  have hpairs : (insertedPairs off drop e₁.flatten).Perm
      (insertedPairs off drop e₂.flatten) :=
    (hperm.filter _).map _
  have hrev : (insertedPairs off drop e₁.flatten).reverse.Perm
      (insertedPairs off drop e₂.flatten).reverse :=
    ((List.reverse_perm _).trans hpairs).trans (List.reverse_perm _).symm
  have hfunP : ∀ p ∈ insertedPairs off drop e₁.flatten,
      ∀ q ∈ insertedPairs off drop e₁.flatten, p.1 = q.1 → p.2 = q.2 := by
    intro p hp q hq hpq
    unfold insertedPairs at hp hq
    obtain ⟨s, hs, rfl⟩ := List.mem_map.mp hp
    obtain ⟨t, ht, rfl⟩ := List.mem_map.mp hq
    exact hfun s (List.mem_of_mem_filter hs) t (List.mem_of_mem_filter ht) hpq
  cases hf1 : (insertedPairs off drop e₁.flatten).reverse.find?
      (fun p => decide (p.1 = k)) with
  | none =>
      have hnone : ∀ x ∈ (insertedPairs off drop e₂.flatten).reverse,
          ¬ (decide (x.1 = k) = true) := by
        intro x hx
        exact (List.find?_eq_none.mp hf1) x (hrev.mem_iff.mpr hx)
      rw [List.find?_eq_none.mpr hnone]
  | some p =>
      have hp_mem : p ∈ insertedPairs off drop e₁.flatten :=
        List.mem_reverse.mp (List.mem_of_find?_eq_some hf1)
      have hp_key : p.1 = k := by simpa using List.find?_some hf1
      cases hf2 : (insertedPairs off drop e₂.flatten).reverse.find?
          (fun p => decide (p.1 = k)) with
      | none =>
          exfalso
          have := (List.find?_eq_none.mp hf2) p
            (hrev.mem_iff.mp (List.mem_reverse.mpr hp_mem))
          simp [hp_key] at this
      | some q =>
          have hq_mem : q ∈ insertedPairs off drop e₂.flatten :=
            List.mem_reverse.mp (List.mem_of_find?_eq_some hf2)
          have hq_mem1 : q ∈ insertedPairs off drop e₁.flatten :=
            hpairs.mem_iff.mpr hq_mem
          have hq_key : q.1 = k := by simpa using List.find?_some hf2
          have hval : p.2 = q.2 :=
            hfunP p hp_mem q hq_mem1 (hp_key.trans hq_key.symm)
          simp [hval]

/-- Witness for C3: two singleton events with distinct keys, swapped. -/
theorem merge_permutation_witness :
    mapEquiv
      (mergeEvents 0 none [] [[⟨1, 2, "a"⟩], [⟨3, 4, "b"⟩]])
      (mergeEvents 0 none [] [[⟨3, 4, "b"⟩], [⟨1, 2, "a"⟩]]) :=
  merge_permutation 0 none [] [[⟨1, 2, "a"⟩], [⟨3, 4, "b"⟩]]
    [[⟨3, 4, "b"⟩], [⟨1, 2, "a"⟩]]
    (show ([⟨1, 2, "a"⟩, ⟨3, 4, "b"⟩] : List RawSeg).Perm
        [⟨3, 4, "b"⟩, ⟨1, 2, "a"⟩] from List.Perm.swap _ _ [])
    (by
      intro s hs t ht hk
      simp at hs ht
      rcases hs with rfl | rfl <;> rcases ht with rfl | rfl
      · rfl
      · exact absurd (congrArg (fun p => p.2.2) hk) (by decide)
      · exact absurd (congrArg (fun p => p.2.2) hk) (by decide)
      · rfl)

/-! ### C4 -/

theorem iterSSEAux_cons_blank (buf : List String) (raw : String)
    (rest : List String) (h : pyRstripCRLF raw = "") :
    iterSSEAux buf (raw :: rest) =
      if buf.isEmpty then iterSSEAux [] rest
      else pyJoin "\n" buf :: iterSSEAux [] rest := by
  simp [iterSSEAux, h]

theorem iterSSEAux_cons_data (buf : List String) (raw : String)
    (rest : List String) (h1 : ¬ pyRstripCRLF raw = "")
    (h2 : pyStartsWith (pyRstripCRLF raw) "data:" = true) :
    iterSSEAux buf (raw :: rest) =
      iterSSEAux (buf ++ [pyLstrip (pyDrop (pyRstripCRLF raw) 5)]) rest := by
  simp [iterSSEAux, h1, h2]

theorem iterSSEAux_cons_other (buf : List String) (raw : String)
    (rest : List String) (h1 : ¬ pyRstripCRLF raw = "")
    (h2 : ¬ pyStartsWith (pyRstripCRLF raw) "data:" = true) :
    iterSSEAux buf (raw :: rest) = iterSSEAux buf rest := by
  simp [iterSSEAux, h1, h2]

theorem sseSignal_cons_blank (strip : String → String) (raw : String)
    (rest : List String) (h : pyRstripCRLF raw = "") :
    sseSignal strip (raw :: rest) = none :: sseSignal strip rest := by
  simp [sseSignal, h]

theorem sseSignal_cons_data (strip : String → String) (raw : String)
    (rest : List String) (h1 : ¬ pyRstripCRLF raw = "")
    (h2 : pyStartsWith (pyRstripCRLF raw) "data:" = true) :
    sseSignal strip (raw :: rest) =
      some (strip (pyDrop (pyRstripCRLF raw) 5)) :: sseSignal strip rest := by
  simp [sseSignal, h1, h2]

theorem sseSignal_cons_other (strip : String → String) (raw : String)
    (rest : List String) (h1 : ¬ pyRstripCRLF raw = "")
    (h2 : ¬ pyStartsWith (pyRstripCRLF raw) "data:" = true) :
    sseSignal strip (raw :: rest) = sseSignal strip rest := by
  simp [sseSignal, h1, h2]

theorem sseGroups_cons_some (s : String) (sig : List (Option String)) :
    sseGroups (some s :: sig) =
      (s :: (sseGroups sig).headI) :: (sseGroups sig).tail := by
  simp only [sseGroups]
  cases hg : sseGroups sig with
  | nil =>
      exfalso
      revert hg
      induction sig with
      | nil => simp [sseGroups]
      | cons o rest ih =>
          cases o with
          | none => simp [sseGroups]
          | some t =>
              simp only [sseGroups]
              cases sseGroups rest <;> simp
  | cons g gs => simp

theorem ssePayloadsOf_cons (g : List String) (gs : List (List String)) :
    ssePayloadsOf (g :: gs) = sseFlush g ++ ssePayloadsOf gs := by
  by_cases hg : g.isEmpty
  · have : g = [] := List.isEmpty_iff.mp hg
    subst this
    simp [ssePayloadsOf, sseFlush, List.filter_cons]
  · have hg' : g.isEmpty = false := Bool.eq_false_iff.mpr hg
    simp [ssePayloadsOf, sseFlush, List.filter_cons, hg']

theorem sseAssemble_nil_buf (groups : List (List String)) :
    sseAssemble [] groups = ssePayloadsOf groups := by
  cases groups with
  | nil => rfl
  | cons g gs =>
      show sseFlush ([] ++ g) ++ ssePayloadsOf gs = _
      rw [List.nil_append, ← ssePayloadsOf_cons]

theorem iterSSEAux_eq (lines : List String) : ∀ buf : List String,
    iterSSEAux buf lines =
      sseAssemble buf (sseGroups (sseSignal pyLstrip lines)) := by
  induction lines with
  | nil =>
      intro buf
      show (if buf.isEmpty then [] else [pyJoin "\n" buf]) =
        sseAssemble buf (sseGroups [])
      show _ = sseFlush (buf ++ []) ++ ([] : List String)
      rw [List.append_nil, List.append_nil]
      rfl
  | cons raw rest ih =>
      intro buf
      by_cases h1 : pyRstripCRLF raw = ""
      · rw [iterSSEAux_cons_blank _ _ _ h1, sseSignal_cons_blank _ _ _ h1]
        show _ = sseAssemble buf ([] :: sseGroups (sseSignal pyLstrip rest))
        show _ = sseFlush (buf ++ []) ++
          ssePayloadsOf (sseGroups (sseSignal pyLstrip rest))
        rw [List.append_nil]
        by_cases hbuf : buf.isEmpty
        · have hb : buf = [] := List.isEmpty_iff.mp hbuf
          subst hb
          show iterSSEAux [] rest =
            ssePayloadsOf (sseGroups (sseSignal pyLstrip rest))
          rw [ih [], sseAssemble_nil_buf]
        · rw [if_neg hbuf, ih [], sseAssemble_nil_buf]
          have hfl : sseFlush buf = [pyJoin "\n" buf] := by
            simp [sseFlush, hbuf]
          rw [hfl]
          rfl
      · by_cases h2 : pyStartsWith (pyRstripCRLF raw) "data:" = true
        · rw [iterSSEAux_cons_data _ _ _ h1 h2,
            sseSignal_cons_data _ _ _ h1 h2, ih, sseGroups_cons_some]
          cases hg : sseGroups (sseSignal pyLstrip rest) with
          | nil =>
              exfalso
              revert hg
              generalize sseSignal pyLstrip rest = sig
              induction sig with
              | nil => simp [sseGroups]
              | cons o rest2 ih2 =>
                  cases o with
                  | none => simp [sseGroups]
                  | some t =>
                      simp only [sseGroups]
                      cases sseGroups rest2 <;> simp
          | cons g gs =>
              show sseAssemble (buf ++ [pyLstrip (pyDrop (pyRstripCRLF raw) 5)])
                  (g :: gs) = _
              show sseFlush (buf ++ [pyLstrip (pyDrop (pyRstripCRLF raw) 5)] ++ g)
                  ++ ssePayloadsOf gs = _
              simp only [List.headI, List.tail]
              show _ = sseFlush (buf ++ (pyLstrip (pyDrop (pyRstripCRLF raw) 5) :: g))
                  ++ ssePayloadsOf gs
              rw [List.append_assoc, List.singleton_append]
        · rw [iterSSEAux_cons_other _ _ _ h1 h2,
            sseSignal_cons_other _ _ _ h1 h2, ih]

/-- Counterexample to C4 as stated: on the line `data:␣␣hi` the code
strips all leading whitespace (`lstrip`) and emits `hi`, while the
claim's single-character stripping rule yields `␣hi`. -/
theorem sse_framing_cex :
    iter_sse_data ["data:  hi"] ≠ ssePayloads stripOneWS ["data:  hi"] := by
  decide

/-- C4 amended: for every finite sequence of input lines the reader
emits exactly one payload per maximal nonempty run of `data:` lines
(non-`data:` lines ignored, a blank line or end of input terminating a
run), each payload being the data-line contents with the `data:`
prefix removed and all leading whitespace stripped, joined with
newlines. -/
theorem sse_framing (lines : List String) :
    iter_sse_data lines = ssePayloads pyLstrip lines := by
  rw [iter_sse_data, iterSSEAux_eq lines [], sseAssemble_nil_buf]
  rfl

/-! ### C8 -/

/-- C8 (evidence of the code bug): a regular file named
`failed_song.mp3` with a supported extension is returned by the
discovery scan — `list_candidate_files` filters only the `processed_`
prefix, so permanently-failed inputs renamed to `failed_<name>` are
rediscovered and reprocessed. -/
theorem failed_prefix_rediscovered :
    list_candidate_files [".mp3"]
        [⟨"failed_song.mp3", true⟩, ⟨"processed_other.mp3", true⟩] =
      ["failed_song.mp3"] := by decide

end Whisper
